import Mathlib

/-!
Shallow embedding of `src/main.rs` of justinj/triangle-counter: a Leapfrog
Triejoin specialized to counting directed triangles.

Modelling conventions:
* `u64` values become `Nat`: the program only compares them, so no `u64`
  arithmetic is involved.
* `usize` positions become `Nat`.  The one arithmetic operation on a
  position is the increment `*i += 1` in `Index::next`, which at
  `usize::MAX` wraps modulo `2^64` in a release build (and panics in a
  debug build); `Index.nextWrap` models that wrap explicitly.  The driver
  embedding uses the unbounded `Index.next`: every position the driver
  reaches is at most `length + 1` of the indexed list, far below
  `usize::MAX`, where the two increments agree (`nextWrap_eq_next`).
* `Rc<Vec<(u64, Vec<u64>)>>` becomes `List (Nat × List Nat)`; the data is
  never mutated, so sharing is irrelevant.
* A Rust `panic!` (including an out-of-bounds `data[i]` indexing) is
  modelled by returning `none` from the corresponding operation; operations
  that cannot panic stay total.
* The `while let` loops of `main` become fuel-indexed recursive functions
  returning `none` when the fuel runs out (or a panic occurs); termination
  is then a theorem, not an assumption.
-/

/-- Source type `Position`: the cursor points either at a first-level
entry (`Upper i`), or at a second-level entry together with its first-level
parent (`Lower i j`). -/
inductive Position where
  | Upper : Nat → Position
  | Lower : Nat → Nat → Position
deriving DecidableEq, Repr

/-- The trie iterator `Index` from the source: a current `Position` plus the
two-level data shared by all cursors. -/
structure Index where
  level : Position
  data : List (Nat × List Nat)
deriving DecidableEq, Repr

/-- The loop of Rust's `slice::binary_search_by`, probing element `mid` via
`get`: `left`/`right` bracket the search window, `mid = left + size / 2`
with `size = right - left`, and the comparator is `get mid` versus `v`.
The call sites in the source merge `Ok(idx) | Err(idx)`, so only the landing
index is returned.  The fuel argument makes the recursion structural; the
window shrinks every iteration, so any fuel ≥ `right - left` computes the
true result of the loop (see `bsearchGo_spec`). -/
def bsearchGo (get : Nat → Nat) (v : Nat) : Nat → Nat → Nat → Nat
  | 0, left, _ => left
  | fuel + 1, left, right =>
    if left < right then
      let mid := left + (right - left) / 2
      match compare (get mid) v with
      | Ordering.lt => bsearchGo get v fuel (mid + 1) right
      | Ordering.eq => mid
      | Ordering.gt => bsearchGo get v fuel left mid
    else left

/-- Merged result of `xs.binary_search(&v)`: the landing index in
`[0, xs.length]`. -/
def binarySearch (xs : List Nat) (v : Nat) : Nat :=
  bsearchGo (fun k => xs.getD k 0) v (xs.length + 1) 0 xs.length

/-- Merged result of `data.binary_search_by_key(&v, |(x, _)| *x)`:
binary search over the first components. -/
def binarySearchByKey (d : List (Nat × List Nat)) (v : Nat) : Nat :=
  bsearchGo (fun k => (d.getD k (0, [])).1) v (d.length + 1) 0 d.length

/-- Constructor `Index::new`: fresh cursor at `Upper(0)`. -/
def Index.new (data : List (Nat × List Nat)) : Index :=
  { level := Position.Upper 0, data := data }

/-- Operation `Index::seek`: reposition the current level to the binary-search landing
index for `v`.  At `Lower(i, _)` the source indexes `self.data[*i]`, which
panics (`none`) when `i` is out of bounds. -/
def Index.seek (self : Index) (v : Nat) : Option Index :=
  match self.level with
  | Position.Upper _ =>
      some { self with level := Position.Upper (binarySearchByKey self.data v) }
  | Position.Lower i _ =>
      match self.data.get? i with
      | some e => some { self with level := Position.Lower i (binarySearch e.2 v) }
      | none => none

/-- Operation `Index::up`: `Lower(i, _) → Upper(i)`; panics (`none`) at `Upper`. -/
def Index.up (self : Index) : Option Index :=
  match self.level with
  | Position.Lower i _ => some { self with level := Position.Upper i }
  | _ => none

/-- Operation `Index::down`: `Upper(i) → Lower(i, 0)`; panics (`none`) at `Lower`. -/
def Index.down (self : Index) : Option Index :=
  match self.level with
  | Position.Upper i => some { self with level := Position.Lower i 0 }
  | _ => none

/-- Operation `Index::reset`: rewind the current level to its first slot. -/
def Index.reset (self : Index) : Index :=
  match self.level with
  | Position.Upper _ => { self with level := Position.Upper 0 }
  | Position.Lower i _ => { self with level := Position.Lower i 0 }

/-- Operation `Index::value`: the current key (at `Upper`) or value (at `Lower`);
`none` signals exhaustion.  Total, because the source only uses the
checked accessor `get`. -/
def Index.value (self : Index) : Option Nat :=
  match self.level with
  | Position.Upper i => (self.data.get? i).map Prod.fst
  | Position.Lower i j => (self.data.get? i).bind fun e => e.2.get? j

/-- Operation `Index::next`: advance the current level by one slot, with
the position as an unbounded `Nat` (sufficient for the driver, whose
positions never leave `[0, length + 1]`; see `Index.nextWrap` for the
exact `usize` increment). -/
def Index.next (self : Index) : Index :=
  match self.level with
  | Position.Upper i => { self with level := Position.Upper (i + 1) }
  | Position.Lower i j => { self with level := Position.Lower i (j + 1) }

/-- The word size of `usize` on the 64-bit target the benchmark runs on:
positions are `usize`, so `*i += 1` wraps modulo `2^64` in a release
build. -/
def usizeWidth : Nat := 2 ^ 64

/-- Operation `Index::next` with the machine width of `usize` made
explicit: `*i += 1` wraps modulo `2^64` (release-build semantics; a debug
build panics at `usize::MAX` instead).  Observable only at position
`usize::MAX` — on every other state this agrees with `Index.next`
(`nextWrap_eq_next`). -/
def Index.nextWrap (self : Index) : Index :=
  match self.level with
  | Position.Upper i => { self with level := Position.Upper ((i + 1) % usizeWidth) }
  | Position.Lower i j => { self with level := Position.Lower i ((j + 1) % usizeWidth) }

/-- Innermost `while let` loop of `main` (binding `c`): leapfrog
intersection of `s` (at `Lower`) and `t` (at `Lower`), counting each match
and advancing both sides. -/
def loop3 : Nat → Index → Index → Nat → Option (Index × Index × Nat)
  | 0, _, _, _ => none
  | fuel + 1, s, t, count =>
    match s.value, t.value with
    | some sC, some tC =>
      match compare sC tC with
      | Ordering.lt => (s.seek tC).bind fun s1 => loop3 fuel s1 t count
      | Ordering.gt => (t.seek sC).bind fun t1 => loop3 fuel s t1 count
      | Ordering.eq => loop3 fuel s.next t.next (count + 1)
    | _, _ => some (s, t, count)

/-- Middle `while let` loop of `main` (binding `b`): leapfrog intersection
of `r` (at `Lower`) and `s` (at `Upper`); on a match, descend `s`, reset
`t`, run `loop3`, then `s.up(); s.next()`. -/
def loop2 : Nat → Index → Index → Index → Nat → Option (Index × Index × Index × Nat)
  | 0, _, _, _, _ => none
  | fuel + 1, r, s, t, count =>
    match r.value, s.value with
    | some rB, some sB =>
      match compare rB sB with
      | Ordering.lt => (r.seek sB).bind fun r1 => loop2 fuel r1 s t count
      | Ordering.gt => (s.seek rB).bind fun s1 => loop2 fuel r s1 t count
      | Ordering.eq =>
          s.down.bind fun s1 =>
          (loop3 fuel s1 t.reset count).bind fun z =>
          z.1.up.bind fun s2 =>
          loop2 fuel r s2.next z.2.1 z.2.2
    | _, _ => some (r, s, t, count)

/-- Outermost `while let` loop of `main` (binding `a`): leapfrog
intersection of `r` (at `Upper`) and `t` (at `Upper`); on a match, descend
`r` and `t`, run `loop2`, then `s.reset(); r.up(); r.next(); t.up();
t.next()`. -/
def loop1 : Nat → Index → Index → Index → Nat → Option (Index × Index × Index × Nat)
  | 0, _, _, _, _ => none
  | fuel + 1, r, s, t, count =>
    match r.value, t.value with
    | some rA, some tA =>
      match compare rA tA with
      | Ordering.lt => (r.seek tA).bind fun r1 => loop1 fuel r1 s t count
      | Ordering.gt => (t.seek rA).bind fun t1 => loop1 fuel r s t1 count
      | Ordering.eq =>
          r.down.bind fun r1 =>
          t.down.bind fun t1 =>
          (loop2 fuel r1 s t1 count).bind fun z =>
          z.1.up.bind fun r2 =>
          z.2.2.1.up.bind fun t2 =>
          loop1 fuel r2.next z.2.1.reset t2.next z.2.2.2
    | _, _ => some (r, s, t, count)

/-- The join driver of `main`: three fresh cursors over the same relation,
run through the nested leapfrog loops; the result is the triangle count. -/
def runJoin (fuel : Nat) (data : List (Nat × List Nat)) : Option Nat :=
  (loop1 fuel (Index.new data) (Index.new data) (Index.new data) 0).map
    fun z => z.2.2.2

/-- The fixed relation from the source's commented-out fixture and §8 of the
spec: `{1:[2,3,4], 2:[4,5], 3:[4,6,7], 4:[5,7,8], 5:[8], 6:[7], 7:[8]}`. -/
def exampleRel : List (Nat × List Nat) :=
  [(1, [2, 3, 4]), (2, [4, 5]), (3, [4, 6, 7]), (4, [5, 7, 8]),
   (5, [8]), (6, [7]), (7, [8])]


/-- The §3 data-model invariants: keys strictly increasing (hence no
duplicate keys), and each entry's value list strictly increasing. -/
def RelSorted (d : List (Nat × List Nat)) : Prop :=
  (d.map Prod.fst).Pairwise (· < ·) ∧ ∀ e ∈ d, e.2.Pairwise (· < ·)

/-- Declarative edge test, following the spec's words: the relation holds
an edge `a → b` when `b` occurs in the value list stored under key `a`. -/
def edgeB (d : List (Nat × List Nat)) (a b : Nat) : Bool :=
  d.any fun e => e.1 == a && e.2.contains b

/-- Declarative enumeration of the join answers, following the spec's
words: all `(a, b, c)` with edges `a → b`, `b → c` and `a → c`, listed
ascending in `a`, then `b`, then `c` (for a relation meeting the §3
invariants). -/
def specTriples (d : List (Nat × List Nat)) : List (Nat × Nat × Nat) :=
  d.flatMap fun ea =>
    ea.2.flatMap fun b =>
      (((d.find? fun e => e.1 == b).map Prod.snd).getD []).flatMap fun c =>
        if edgeB d ea.1 c then [(ea.1, b, c)] else []

/-- Synonym record of positions used to state cursor-level theorems tersely:
an `Index` with the given level over the given data. -/
def mkIdx (p : Position) (d : List (Nat × List Nat)) : Index :=
  { level := p, data := d }

/-- C1: on the fixed relation `{1:[2,3,4], 2:[4,5], 3:[4,6,7], 4:[5,7,8],
5:[8], 6:[7], 7:[8]}`, the join driver reports exactly 7 triples, and the
declarative reading of the join pattern yields exactly the seven triples
`(1,2,4), (1,3,4), (2,4,5), (3,4,7), (3,6,7), (4,5,8), (4,7,8)`. -/
theorem runJoin_exampleRel :
    runJoin 200 exampleRel = some 7 ∧
    specTriples exampleRel =
      [(1, 2, 4), (1, 3, 4), (2, 4, 5), (3, 4, 7), (3, 6, 7), (4, 5, 8), (4, 7, 8)] := by
  decide

/-- C5: at `Upper(i)`, `down()` immediately followed by `up()` restores
exactly the prior state: same position, same level, relation unchanged. -/
theorem down_up_roundtrip (idx : Index) (i : Nat)
    (h : idx.level = Position.Upper i) :
    idx.down.bind Index.up = some idx := by
  obtain ⟨lv, d⟩ := idx
  cases h
  rfl

/-- C5 witness: concrete round trip at `Upper(1)` over the example
relation. -/
theorem down_up_roundtrip_witness :
    (mkIdx (Position.Upper 1) exampleRel).down.bind Index.up =
      some (mkIdx (Position.Upper 1) exampleRel) :=
  down_up_roundtrip (mkIdx (Position.Upper 1) exampleRel) 1 rfl

/-- C6: `reset()` at `Upper(i)` moves to `Upper(0)`; at `Lower(i, j)` it
keeps the outer index `i` and moves the inner index to `0`; in both cases
the level kind and the relation are unchanged. -/
theorem reset_spec (idx : Index) :
    (∀ i, idx.level = Position.Upper i →
      idx.reset = mkIdx (Position.Upper 0) idx.data) ∧
    (∀ i j, idx.level = Position.Lower i j →
      idx.reset = mkIdx (Position.Lower i 0) idx.data) := by
  obtain ⟨lv, d⟩ := idx
  constructor
  · intro i h
    cases h
    rfl
  · intro i j h
    cases h
    rfl

/-- C6 witness: concrete resets at `Upper(3)` and `Lower(2, 2)` over the
example relation. -/
theorem reset_spec_witness :
    (mkIdx (Position.Upper 3) exampleRel).reset =
      mkIdx (Position.Upper 0) exampleRel ∧
    (mkIdx (Position.Lower 2 2) exampleRel).reset =
      mkIdx (Position.Lower 2 0) exampleRel :=
  ⟨(reset_spec (mkIdx (Position.Upper 3) exampleRel)).1 3 rfl,
   (reset_spec (mkIdx (Position.Lower 2 2) exampleRel)).2 2 2 rfl⟩

/-- On every position whose successor is below the word size, the exact
`usize` increment agrees with the unbounded one used by the driver
embedding. -/
theorem nextWrap_eq_next (idx : Index) :
    (∀ i, idx.level = Position.Upper i → i + 1 < usizeWidth →
      idx.nextWrap = idx.next) ∧
    (∀ i j, idx.level = Position.Lower i j → j + 1 < usizeWidth →
      idx.nextWrap = idx.next) := by
  obtain ⟨lv, d⟩ := idx
  constructor
  · intro i hl hw
    cases hl
    show mkIdx (Position.Upper ((i + 1) % usizeWidth)) d =
      mkIdx (Position.Upper (i + 1)) d
    rw [Nat.mod_eq_of_lt hw]
  · intro i j hl hw
    cases hl
    show mkIdx (Position.Lower i ((j + 1) % usizeWidth)) d =
      mkIdx (Position.Lower i (j + 1)) d
    rw [Nat.mod_eq_of_lt hw]

/-- C7 counterexample: the claim quantifies over every `Index` whose
current level is exhausted and asserts the position never wraps around.
But at `Upper(usize::MAX)` over the (non-empty) example relation —
`value()` is `none` there — the source's `*i += 1` wraps the position to
`0` in a release build, after which `value()` returns the first key again
(a debug build panics on the overflow instead, so in neither build does
`value()` stay `none`). -/
theorem next_wraps_at_usize_max :
    (mkIdx (Position.Upper (usizeWidth - 1)) exampleRel).value = none ∧
    (mkIdx (Position.Upper (usizeWidth - 1)) exampleRel).nextWrap =
      mkIdx (Position.Upper 0) exampleRel ∧
    (mkIdx (Position.Upper 0) exampleRel).value = some 1 := by
  refine ⟨?_, ?_, by decide⟩
  · show (exampleRel.get? (usizeWidth - 1)).map Prod.fst = none
    rw [List.get?_eq_none.mpr (by decide)]
    rfl
  · show mkIdx (Position.Upper ((usizeWidth - 1 + 1) % usizeWidth)) exampleRel =
      mkIdx (Position.Upper 0) exampleRel
    rw [show (usizeWidth - 1 + 1) % usizeWidth = 0 by decide]

/-- C7 amended: `next()` is no-op-safe at exhaustion at every `Index`
whose exhausted level sits at a position below `usize::MAX` (which covers
every driver-reachable state): `value()` still returns `none` afterwards
and the position does not wrap around to the start of the level.  At
position `usize::MAX` itself the release-build increment wraps to the
start of the level and `value()` can become `some` again (see
`next_wraps_at_usize_max`); a debug build panics there instead. -/
theorem next_exhausted_amended (idx : Index) (h : idx.value = none) :
    (∀ i, idx.level = Position.Upper i → i + 1 < usizeWidth →
      idx.nextWrap.value = none) ∧
    (∀ i j, idx.level = Position.Lower i j → j + 1 < usizeWidth →
      idx.nextWrap.value = none) := by
  obtain ⟨lv, d⟩ := idx
  constructor
  · intro i hl hw
    cases hl
    have h2 : (d.get? i).map Prod.fst = none := h
    show (d.get? ((i + 1) % usizeWidth)).map Prod.fst = none
    rw [Nat.mod_eq_of_lt hw]
    rw [Option.map_eq_none'] at h2 ⊢
    rw [List.get?_eq_none] at h2 ⊢
    omega
  · intro i j hl hw
    cases hl
    have h2 : ((d.get? i).bind fun e => e.2.get? j) = none := h
    show ((d.get? i).bind fun e => e.2.get? ((j + 1) % usizeWidth)) = none
    rw [Nat.mod_eq_of_lt hw]
    cases hg : d.get? i with
    | none => rfl
    | some e =>
      rw [hg] at h2
      have h3 : e.2.get? j = none := h2
      show e.2.get? (j + 1) = none
      rw [List.get?_eq_none] at h3 ⊢
      omega

/-- C7 amended witness: concrete exhausted cursor at `Upper(7)` (past the
last key of the example relation, and far below `usize::MAX`) stays
exhausted after the exact `usize` increment. -/
theorem next_exhausted_amended_witness :
    (mkIdx (Position.Upper 7) exampleRel).value = none ∧
    (7 : Nat) + 1 < usizeWidth ∧
    (mkIdx (Position.Upper 7) exampleRel).nextWrap.value = none :=
  ⟨by decide, by decide,
   (next_exhausted_amended (mkIdx (Position.Upper 7) exampleRel) (by decide)).1 7
     rfl (by decide)⟩

/-- C8: `down()` at `Lower` and `up()` at `Upper` are contract violations:
the source `panic!`s (modelled as `none`), it does not return a
recoverable value. -/
theorem down_up_misuse (idx : Index) :
    (∀ i j, idx.level = Position.Lower i j → idx.down = none) ∧
    (∀ i, idx.level = Position.Upper i → idx.up = none) := by
  obtain ⟨lv, d⟩ := idx
  constructor
  · intro i j h
    cases h
    rfl
  · intro i h
    cases h
    rfl

/-- C8 witness: concrete misuse at `Lower(0, 0)` and at `Upper(0)` over
the example relation. -/
theorem down_up_misuse_witness :
    (mkIdx (Position.Lower 0 0) exampleRel).down = none ∧
    (mkIdx (Position.Upper 0) exampleRel).up = none :=
  ⟨(down_up_misuse (mkIdx (Position.Lower 0 0) exampleRel)).1 0 0 rfl,
   (down_up_misuse (mkIdx (Position.Upper 0) exampleRel)).2 0 rfl⟩

/-- C10: `value()` is total and signals every out-of-bounds position with
`none` rather than a panic: at `Upper(i)` with `i` past the end, at
`Lower(i, j)` with the outer index `i` past the end, and at `Lower(i, j)`
with `i` in bounds but `j` past the end of the value list. -/
theorem value_total (d : List (Nat × List Nat)) :
    (∀ i, d.length ≤ i → (mkIdx (Position.Upper i) d).value = none) ∧
    (∀ i j, d.length ≤ i → (mkIdx (Position.Lower i j) d).value = none) ∧
    (∀ i j e, d.get? i = some e → e.2.length ≤ j →
      (mkIdx (Position.Lower i j) d).value = none) := by
  refine ⟨fun i h => ?_, fun i j h => ?_, fun i j e he h => ?_⟩
  · show (d.get? i).map Prod.fst = none
    rw [List.get?_eq_none.mpr h]
    rfl
  · show ((d.get? i).bind fun e => e.2.get? j) = none
    rw [List.get?_eq_none.mpr h]
    rfl
  · show ((d.get? i).bind fun e => e.2.get? j) = none
    rw [he]
    exact List.get?_eq_none.mpr h

/-- C10 witness: concrete out-of-bounds positions over the example
relation — `Upper(9)`, `Lower(9, 0)`, and `Lower(1, 5)` (key `2` has only
two values). -/
theorem value_total_witness :
    (mkIdx (Position.Upper 9) exampleRel).value = none ∧
    (mkIdx (Position.Lower 9 0) exampleRel).value = none ∧
    (mkIdx (Position.Lower 1 5) exampleRel).value = none :=
  ⟨(value_total exampleRel).1 9 (by decide),
   (value_total exampleRel).2.1 9 0 (by decide),
   (value_total exampleRel).2.2 1 5 (2, [4, 5]) (by decide) (by decide)⟩

/-- C4 counterexample: the claim asserts `seek` succeeds at every state
reachable through the public operations, including past-the-end positions.
But from `new` on the empty relation, `down()` succeeds and reaches
`Lower(0, 0)`, where `seek` evaluates `self.data[0]` out of bounds and
panics (modelled as `none`). -/
theorem seek_not_total :
    (Index.new []).down = some (mkIdx (Position.Lower 0 0) []) ∧
    Index.seek (mkIdx (Position.Lower 0 0) []) 0 = none := by
  decide

/-- Unfolding equation: one iteration of the binary-search loop. -/
theorem bsearchGo_succ (get : Nat → Nat) (v fuel left right : Nat) :
    bsearchGo get v (fuel + 1) left right =
      if left < right then
        match compare (get (left + (right - left) / 2)) v with
        | Ordering.lt => bsearchGo get v fuel (left + (right - left) / 2 + 1) right
        | Ordering.eq => left + (right - left) / 2
        | Ordering.gt => bsearchGo get v fuel left (left + (right - left) / 2)
      else left := rfl

/-- Strictly increasing lists are strictly increasing under `getD`. -/
theorem getD_lt_getD {xs : List Nat} (hs : xs.Pairwise (· < ·)) {a b : Nat}
    (hab : a < b) (hb : b < xs.length) : xs.getD a 0 < xs.getD b 0 := by
  have ha : a < xs.length := lt_trans hab hb
  rw [List.getD_eq_getElem xs 0 ha, List.getD_eq_getElem xs 0 hb]
  exact List.pairwise_iff_getElem.mp hs a b ha hb hab

/-- Correctness of the binary-search loop over a window of a strictly
increasing sequence: with enough fuel, the landing index stays inside the
window, everything below it compares `< v`, and everything from it on (up
to `len`) compares `≥ v`. -/
theorem bsearchGo_spec (get : Nat → Nat) (v len : Nat)
    (hmono : ∀ a b, a < b → b < len → get a < get b) :
    ∀ fuel left right, right - left ≤ fuel → left ≤ right → right ≤ len →
      (∀ k, k < left → get k < v) →
      (∀ k, right ≤ k → k < len → v ≤ get k) →
      left ≤ bsearchGo get v fuel left right ∧
      bsearchGo get v fuel left right ≤ right ∧
      (∀ k, k < bsearchGo get v fuel left right → get k < v) ∧
      (∀ k, bsearchGo get v fuel left right ≤ k → k < len → v ≤ get k) := by
  intro fuel
  induction fuel with
  | zero =>
    intro left right hf hlr hrl hlow hhigh
    have he : left = right := by omega
    subst he
    exact ⟨le_refl _, le_refl _, hlow, hhigh⟩
  | succ n ih =>
    intro left right hf hlr hrl hlow hhigh
    by_cases hcase : left < right
    · have hmlt : left + (right - left) / 2 < right := by omega
      have hmge : left ≤ left + (right - left) / 2 := Nat.le_add_right _ _
      have hmlen : left + (right - left) / 2 < len := lt_of_lt_of_le hmlt hrl
      cases hc : compare (get (left + (right - left) / 2)) v with
      | lt =>
        have hunf : bsearchGo get v (n + 1) left right =
            bsearchGo get v n (left + (right - left) / 2 + 1) right := by
          rw [bsearchGo_succ, if_pos hcase, hc]
        have hlt : get (left + (right - left) / 2) < v := Nat.compare_eq_lt.mp hc
        have hres := ih (left + (right - left) / 2 + 1) right (by omega) (by omega) hrl
          (fun k hk => by
            have hk2 : k < left + (right - left) / 2 ∨ k = left + (right - left) / 2 := by
              omega
            cases hk2 with
            | inl hk2 => exact lt_trans (hmono k _ hk2 hmlen) hlt
            | inr hk2 => exact hk2 ▸ hlt)
          hhigh
        rw [hunf]
        exact ⟨le_trans (by omega) hres.1, hres.2.1, hres.2.2.1, hres.2.2.2⟩
      | eq =>
        have hunf : bsearchGo get v (n + 1) left right = left + (right - left) / 2 := by
          rw [bsearchGo_succ, if_pos hcase, hc]
        have heq : get (left + (right - left) / 2) = v := Nat.compare_eq_eq.mp hc
        rw [hunf]
        refine ⟨hmge, le_of_lt hmlt, fun k hk => ?_, fun k hk1 hk2 => ?_⟩
        · exact heq ▸ hmono k _ hk hmlen
        · have hk3 : k = left + (right - left) / 2 ∨ left + (right - left) / 2 < k := by
            omega
          cases hk3 with
          | inl hk3 => exact hk3 ▸ le_of_eq heq.symm
          | inr hk3 => exact le_of_lt (heq ▸ hmono _ k hk3 hk2)
      | gt =>
        have hunf : bsearchGo get v (n + 1) left right =
            bsearchGo get v n left (left + (right - left) / 2) := by
          rw [bsearchGo_succ, if_pos hcase, hc]
        have hgt : v < get (left + (right - left) / 2) := Nat.compare_eq_gt.mp hc
        have hres := ih left (left + (right - left) / 2) (by omega) hmge
          (le_trans (le_of_lt hmlt) hrl) hlow
          (fun k hk1 hk2 => by
            have hk3 : k = left + (right - left) / 2 ∨ left + (right - left) / 2 < k := by
              omega
            cases hk3 with
            | inl hk3 => exact hk3 ▸ le_of_lt hgt
            | inr hk3 => exact le_of_lt (lt_trans hgt (hmono _ k hk3 hk2)))
        rw [hunf]
        exact ⟨hres.1, le_trans hres.2.1 (le_of_lt hmlt), hres.2.2.1, hres.2.2.2⟩
    · have he : left = right := by omega
      rw [bsearchGo_succ, if_neg hcase]
      subst he
      exact ⟨le_refl _, le_refl _, hlow, hhigh⟩

/-- Correctness of the merged `binary_search` over a strictly increasing
list: the landing index is the first position whose element is `≥ v` (or
the length, when no such element exists). -/
theorem binarySearch_spec (xs : List Nat) (v : Nat) (hs : xs.Pairwise (· < ·)) :
    binarySearch xs v ≤ xs.length ∧
    (∀ k, k < binarySearch xs v → xs.getD k 0 < v) ∧
    (∀ k, binarySearch xs v ≤ k → k < xs.length → v ≤ xs.getD k 0) := by
  have h := bsearchGo_spec (fun k => xs.getD k 0) v xs.length
    (fun a b hab hb => getD_lt_getD hs hab hb)
    (xs.length + 1) 0 xs.length (by omega) (Nat.zero_le _) (le_refl _)
    (fun k hk => absurd hk (Nat.not_lt_zero k))
    (fun k hk1 hk2 => absurd (lt_of_le_of_lt hk1 hk2) (lt_irrefl _))
  exact ⟨h.2.1, h.2.2.1, h.2.2.2⟩

/-- The probe used by `binary_search_by_key` agrees with the list of
keys. -/
theorem key_getD_eq (d : List (Nat × List Nat)) (k : Nat) :
    (d.getD k (0, [])).1 = (d.map Prod.fst).getD k 0 := by
  by_cases hk : k < d.length
  · rw [List.getD_eq_getElem d _ hk,
      List.getD_eq_getElem (d.map Prod.fst) _ (by simpa using hk)]
    simp
  · rw [List.getD_eq_default d _ (by omega),
      List.getD_eq_default (d.map Prod.fst) _ (by simp; omega)]

/-- Correctness of the merged `binary_search_by_key` over a relation with
strictly increasing keys: the landing index is the first entry whose key is
`≥ v` (or the length, when no such entry exists). -/
theorem binarySearchByKey_spec (d : List (Nat × List Nat)) (v : Nat)
    (hs : (d.map Prod.fst).Pairwise (· < ·)) :
    binarySearchByKey d v ≤ d.length ∧
    (∀ k, k < binarySearchByKey d v → (d.getD k (0, [])).1 < v) ∧
    (∀ k, binarySearchByKey d v ≤ k → k < d.length → v ≤ (d.getD k (0, [])).1) := by
  have hmono : ∀ a b, a < b → b < d.length →
      (d.getD a (0, [])).1 < (d.getD b (0, [])).1 := by
    intro a b hab hb
    rw [key_getD_eq, key_getD_eq]
    exact getD_lt_getD hs hab (by simpa using hb)
  have h := bsearchGo_spec (fun k => (d.getD k (0, [])).1) v d.length hmono
    (d.length + 1) 0 d.length (by omega) (Nat.zero_le _) (le_refl _)
    (fun k hk => absurd hk (Nat.not_lt_zero k))
    (fun k hk1 hk2 => absurd (lt_of_le_of_lt hk1 hk2) (lt_irrefl _))
  exact ⟨h.2.1, h.2.2.1, h.2.2.2⟩

/-- Unfolding equation: `seek` at `Upper` lands at the key-level binary
search result. -/
theorem seek_upper_eq (d : List (Nat × List Nat)) (i v : Nat) :
    (mkIdx (Position.Upper i) d).seek v =
      some (mkIdx (Position.Upper (binarySearchByKey d v)) d) := rfl

/-- Unfolding equation: `seek` at `Lower` with an in-bounds outer entry
lands at the value-level binary search result. -/
theorem seek_lower_eq (d : List (Nat × List Nat)) (i j v : Nat)
    (e : Nat × List Nat) (he : d.get? i = some e) :
    (mkIdx (Position.Lower i j) d).seek v =
      some (mkIdx (Position.Lower i (binarySearch e.2 v)) d) := by
  show (match d.get? i with
    | some e => some (mkIdx (Position.Lower i (binarySearch e.2 v)) d)
    | none => none) =
    some (mkIdx (Position.Lower i (binarySearch e.2 v)) d)
  rw [he]

/-- Unfolding equation: `seek` at `Lower` with an out-of-bounds outer
entry panics. -/
theorem seek_lower_none (d : List (Nat × List Nat)) (i j v : Nat)
    (he : d.get? i = none) :
    (mkIdx (Position.Lower i j) d).seek v = none := by
  show (match d.get? i with
    | some e => some (mkIdx (Position.Lower i (binarySearch e.2 v)) d)
    | none => none) = none
  rw [he]

/-- C4 amended: `seek(v)` succeeds at every `Upper` position (in bounds or
past the end), and at every `Lower` position whose outer index is in
bounds; it panics only at a `Lower` position whose outer index is out of
bounds (a state reachable through the public operations, see
`seek_not_total`). -/
theorem seek_total_amended (idx : Index) (v : Nat) :
    (∀ i, idx.level = Position.Upper i → (idx.seek v).isSome = true) ∧
    (∀ i j, idx.level = Position.Lower i j → i < idx.data.length →
      (idx.seek v).isSome = true) := by
  obtain ⟨lv, d⟩ := idx
  constructor
  · intro i h
    cases h
    rfl
  · intro i j h hi
    cases h
    have he : d.get? i = some (d.get ⟨i, hi⟩) := List.get?_eq_get hi
    rw [show ({ level := Position.Lower i j, data := d } : Index) =
      mkIdx (Position.Lower i j) d from rfl,
      seek_lower_eq d i j v _ he]
    rfl

/-- C4 amended witness: concrete past-the-end `Upper(9)` and in-bounds
`Lower(3, 9)` states over the example relation. -/
theorem seek_total_amended_witness :
    ((mkIdx (Position.Upper 9) exampleRel).seek 5).isSome = true ∧
    ((mkIdx (Position.Lower 3 9) exampleRel).seek 5).isSome = true :=
  ⟨(seek_total_amended (mkIdx (Position.Upper 9) exampleRel) 5).1 9 rfl,
   (seek_total_amended (mkIdx (Position.Lower 3 9) exampleRel) 5).2 3 9 rfl
     (by decide)⟩

/-- C2: over any relation satisfying the §3 sortedness invariants, and any
target `v`: `seek(v)` at `Upper(i)` repositions the cursor to the first
entry whose key is `≥ v` — every earlier key is `< v` and every key from
the landing index on is `≥ v` — or to the exhausted position `d.length`
when no such key exists; `seek(v)` at `Lower(i, j)` with `i` in bounds
does the same over the `i`-th entry's value list. -/
theorem seek_first_geq (d : List (Nat × List Nat)) (hInv : RelSorted d) (v : Nat) :
    (∀ i, ∃ i2, (mkIdx (Position.Upper i) d).seek v =
        some (mkIdx (Position.Upper i2) d) ∧
      i2 ≤ d.length ∧
      (∀ k, k < i2 → (d.getD k (0, [])).1 < v) ∧
      (∀ k, i2 ≤ k → k < d.length → v ≤ (d.getD k (0, [])).1)) ∧
    (∀ i j e, d.get? i = some e → ∃ j2,
      (mkIdx (Position.Lower i j) d).seek v =
        some (mkIdx (Position.Lower i j2) d) ∧
      j2 ≤ e.2.length ∧
      (∀ k, k < j2 → e.2.getD k 0 < v) ∧
      (∀ k, j2 ≤ k → k < e.2.length → v ≤ e.2.getD k 0)) := by
  constructor
  · intro i
    refine ⟨binarySearchByKey d v, seek_upper_eq d i v, ?_⟩
    exact binarySearchByKey_spec d v hInv.1
  · intro i j e he
    refine ⟨binarySearch e.2 v, seek_lower_eq d i j v e he, ?_⟩
    exact binarySearch_spec e.2 v (hInv.2 e (List.get?_mem he))

/-- C2 witness: concrete application over the example relation with target
`5` at `Upper(0)` — the cursor must land on key `5`. -/
theorem seek_first_geq_witness :
    RelSorted exampleRel ∧
    ∃ i2, (mkIdx (Position.Upper 0) exampleRel).seek 5 =
        some (mkIdx (Position.Upper i2) exampleRel) ∧
      i2 ≤ exampleRel.length ∧
      (∀ k, k < i2 → (exampleRel.getD k (0, [])).1 < 5) ∧
      (∀ k, i2 ≤ k → k < exampleRel.length → 5 ≤ (exampleRel.getD k (0, [])).1) :=
  ⟨by unfold RelSorted; decide, (seek_first_geq exampleRel (by unfold RelSorted; decide) 5).1 0⟩

/-- Unfolding equation: `value` at `Upper`. -/
theorem value_upper_eq (d : List (Nat × List Nat)) (i : Nat) :
    (mkIdx (Position.Upper i) d).value = (d.get? i).map Prod.fst := rfl

/-- Unfolding equation: `value` at `Lower`. -/
theorem value_lower_eq (d : List (Nat × List Nat)) (i j : Nat) :
    (mkIdx (Position.Lower i j) d).value = (d.get? i).bind fun e => e.2.get? j := rfl

/-- Unfolding equation: `next` at `Upper`. -/
theorem next_upper_eq (d : List (Nat × List Nat)) (i : Nat) :
    (mkIdx (Position.Upper i) d).next = mkIdx (Position.Upper (i + 1)) d := rfl

/-- Unfolding equation: `next` at `Lower`. -/
theorem next_lower_eq (d : List (Nat × List Nat)) (i j : Nat) :
    (mkIdx (Position.Lower i j) d).next = mkIdx (Position.Lower i (j + 1)) d := rfl

/-- Unfolding equation: `reset` at `Upper`. -/
theorem reset_upper_eq (d : List (Nat × List Nat)) (i : Nat) :
    (mkIdx (Position.Upper i) d).reset = mkIdx (Position.Upper 0) d := rfl

/-- Unfolding equation: `reset` at `Lower`. -/
theorem reset_lower_eq (d : List (Nat × List Nat)) (i j : Nat) :
    (mkIdx (Position.Lower i j) d).reset = mkIdx (Position.Lower i 0) d := rfl

/-- Unfolding equation: `down` at `Upper`. -/
theorem down_upper_eq (d : List (Nat × List Nat)) (i : Nat) :
    (mkIdx (Position.Upper i) d).down = some (mkIdx (Position.Lower i 0) d) := rfl

/-- Unfolding equation: `up` at `Lower`. -/
theorem up_lower_eq (d : List (Nat × List Nat)) (i j : Nat) :
    (mkIdx (Position.Lower i j) d).up = some (mkIdx (Position.Upper i) d) := rfl

/-- A successful `get?` implies the position is in bounds. -/
theorem get?_some_lt {α : Type} (xs : List α) (n : Nat) (w : α)
    (h : xs.get? n = some w) : n < xs.length := by
  by_contra hn
  push_neg at hn
  rw [List.get?_eq_none.mpr hn] at h
  cases h

/-- The `value` at `Lower(i, j)` reads the `j`-th slot of the `i`-th
entry's value list. -/
theorem value_lower_some (d : List (Nat × List Nat)) (i j w : Nat)
    (e : Nat × List Nat) (he : d.get? i = some e)
    (h : (mkIdx (Position.Lower i j) d).value = some w) :
    e.2.get? j = some w := by
  rw [value_lower_eq, he] at h
  exact h

/-- Leapfrog progress at `Upper`: when the current key is `< v`, seeking
`v` strictly advances the cursor (and stays within bounds). -/
theorem seek_upper_progress (d : List (Nat × List Nat)) (i v w : Nat)
    (hk : (d.map Prod.fst).Pairwise (· < ·))
    (hval : (mkIdx (Position.Upper i) d).value = some w) (hlt : w < v) :
    binarySearchByKey d v ≤ d.length ∧ i < binarySearchByKey d v := by
  have h := binarySearchByKey_spec d v hk
  rw [value_upper_eq] at hval
  rcases Option.map_eq_some'.mp hval with ⟨e, he, hw⟩
  have hi : i < d.length := get?_some_lt d i e he
  refine ⟨h.1, ?_⟩
  by_contra hnot
  push_neg at hnot
  have hv := h.2.2 i hnot hi
  have hde : d.getD i (0, []) = e := by rw [List.getD_eq_getD_get?, he]; rfl
  rw [hde, hw] at hv
  omega

/-- Leapfrog progress at `Lower`: when the current value is `< v`, seeking
`v` strictly advances the cursor (and stays within bounds). -/
theorem seek_lower_progress (d : List (Nat × List Nat)) (i j v w : Nat)
    (e : Nat × List Nat) (he : d.get? i = some e) (hs : e.2.Pairwise (· < ·))
    (hval : (mkIdx (Position.Lower i j) d).value = some w) (hlt : w < v) :
    binarySearch e.2 v ≤ e.2.length ∧ j < binarySearch e.2 v := by
  have h := binarySearch_spec e.2 v hs
  have hj : e.2.get? j = some w := value_lower_some d i j w e he hval
  have hjlen : j < e.2.length := get?_some_lt e.2 j w hj
  refine ⟨h.1, ?_⟩
  by_contra hnot
  push_neg at hnot
  have hv := h.2.2 j hnot hjlen
  have hde : e.2.getD j 0 = w := by rw [List.getD_eq_getD_get?, hj]; rfl
  rw [hde] at hv
  omega

/-- Termination and framing of the innermost loop: started at `Lower`
positions whose outer entries are in bounds and whose value lists are
strictly increasing, `loop3` returns with enough fuel, leaving both
cursors at `Lower` with their outer indices unchanged. -/
theorem loop3_term (ds dt : List (Nat × List Nat)) (si ti : Nat)
    (es et : Nat × List Nat) (hes : ds.get? si = some es)
    (het : dt.get? ti = some et) (hss : es.2.Pairwise (· < ·))
    (hts : et.2.Pairwise (· < ·)) :
    ∀ (m sj tj count : Nat),
      es.2.length - sj + (et.2.length - tj) ≤ m →
      ∃ N sj2 tj2 c2, ∀ fuel, N ≤ fuel →
        loop3 fuel (mkIdx (Position.Lower si sj) ds)
            (mkIdx (Position.Lower ti tj) dt) count =
          some (mkIdx (Position.Lower si sj2) ds,
                mkIdx (Position.Lower ti tj2) dt, c2) := by
  intro m
  induction m with
  | zero =>
    intro sj tj count hm
    refine ⟨1, sj, tj, count, ?_⟩
    intro fuel hf
    obtain ⟨f, rfl⟩ : ∃ f, fuel = f + 1 := ⟨fuel - 1, by omega⟩
    have hs : (mkIdx (Position.Lower si sj) ds).value = none := by
      rw [value_lower_eq, hes]
      show es.2.get? sj = none
      exact List.get?_eq_none.mpr (by omega)
    simp only [loop3, hs]
  | succ n ih =>
    intro sj tj count hm
    cases hsv : (mkIdx (Position.Lower si sj) ds).value with
    | none =>
      refine ⟨1, sj, tj, count, ?_⟩
      intro fuel hf
      obtain ⟨f, rfl⟩ : ∃ f, fuel = f + 1 := ⟨fuel - 1, by omega⟩
      simp only [loop3, hsv]
    | some sc =>
      cases htv : (mkIdx (Position.Lower ti tj) dt).value with
      | none =>
        refine ⟨1, sj, tj, count, ?_⟩
        intro fuel hf
        obtain ⟨f, rfl⟩ : ∃ f, fuel = f + 1 := ⟨fuel - 1, by omega⟩
        simp only [loop3, hsv, htv]
      | some tc =>
        have hsj : sj < es.2.length :=
          get?_some_lt es.2 sj sc (value_lower_some ds si sj sc es hes hsv)
        have htj : tj < et.2.length :=
          get?_some_lt et.2 tj tc (value_lower_some dt ti tj tc et het htv)
        rcases lt_trichotomy sc tc with h | h | h
        · have hc : compare sc tc = Ordering.lt := Nat.compare_eq_lt.mpr h
          have hprog := seek_lower_progress ds si sj tc sc es hes hss hsv h
          have hseek := seek_lower_eq ds si sj tc es hes
          obtain ⟨N, sj2, tj2, c2, hN⟩ :=
            ih (binarySearch es.2 tc) tj count (by omega)
          refine ⟨N + 1, sj2, tj2, c2, ?_⟩
          intro fuel hf
          obtain ⟨f, rfl⟩ : ∃ f, fuel = f + 1 := ⟨fuel - 1, by omega⟩
          simp only [loop3, hsv, htv, hc, hseek, Option.some_bind]
          exact hN f (by omega)
        · have hc : compare sc tc = Ordering.eq := Nat.compare_eq_eq.mpr h
          obtain ⟨N, sj2, tj2, c2, hN⟩ := ih (sj + 1) (tj + 1) (count + 1) (by omega)
          refine ⟨N + 1, sj2, tj2, c2, ?_⟩
          intro fuel hf
          obtain ⟨f, rfl⟩ : ∃ f, fuel = f + 1 := ⟨fuel - 1, by omega⟩
          simp only [loop3, hsv, htv, hc, next_lower_eq]
          exact hN f (by omega)
        · have hc : compare sc tc = Ordering.gt := Nat.compare_eq_gt.mpr h
          have hprog := seek_lower_progress dt ti tj sc tc et het hts htv h
          have hseek := seek_lower_eq dt ti tj sc et het
          obtain ⟨N, sj2, tj2, c2, hN⟩ :=
            ih sj (binarySearch et.2 sc) count (by omega)
          refine ⟨N + 1, sj2, tj2, c2, ?_⟩
          intro fuel hf
          obtain ⟨f, rfl⟩ : ∃ f, fuel = f + 1 := ⟨fuel - 1, by omega⟩
          simp only [loop3, hsv, htv, hc, hseek, Option.some_bind]
          exact hN f (by omega)

/-- Termination and framing of the middle loop: started with `r` at an
in-bounds `Lower` position with a sorted value list, `s` at `Upper` over a
relation satisfying the §3 invariants, and `t` at an in-bounds `Lower`
position with a sorted value list, `loop2` returns with enough fuel,
leaving `r` and `t` at `Lower` with unchanged outer indices and `s` at
`Upper`. -/
theorem loop2_term (dr ds dt : List (Nat × List Nat)) (ri ti : Nat)
    (er et : Nat × List Nat) (her : dr.get? ri = some er)
    (het : dt.get? ti = some et) (hrs : er.2.Pairwise (· < ·))
    (hts : et.2.Pairwise (· < ·)) (hds : RelSorted ds) :
    ∀ (m rj sk tj count : Nat),
      er.2.length - rj + (ds.length - sk) ≤ m →
      ∃ N rj2 sk2 tj2 c2, ∀ fuel, N ≤ fuel →
        loop2 fuel (mkIdx (Position.Lower ri rj) dr) (mkIdx (Position.Upper sk) ds)
            (mkIdx (Position.Lower ti tj) dt) count =
          some (mkIdx (Position.Lower ri rj2) dr, mkIdx (Position.Upper sk2) ds,
                mkIdx (Position.Lower ti tj2) dt, c2) := by
  intro m
  induction m with
  | zero =>
    intro rj sk tj count hm
    refine ⟨1, rj, sk, tj, count, ?_⟩
    intro fuel hf
    obtain ⟨f, rfl⟩ : ∃ f, fuel = f + 1 := ⟨fuel - 1, by omega⟩
    have hr : (mkIdx (Position.Lower ri rj) dr).value = none := by
      rw [value_lower_eq, her]
      show er.2.get? rj = none
      exact List.get?_eq_none.mpr (by omega)
    simp only [loop2, hr]
  | succ n ih =>
    intro rj sk tj count hm
    cases hrv : (mkIdx (Position.Lower ri rj) dr).value with
    | none =>
      refine ⟨1, rj, sk, tj, count, ?_⟩
      intro fuel hf
      obtain ⟨f, rfl⟩ : ∃ f, fuel = f + 1 := ⟨fuel - 1, by omega⟩
      simp only [loop2, hrv]
    | some rb =>
      cases hsv : (mkIdx (Position.Upper sk) ds).value with
      | none =>
        refine ⟨1, rj, sk, tj, count, ?_⟩
        intro fuel hf
        obtain ⟨f, rfl⟩ : ∃ f, fuel = f + 1 := ⟨fuel - 1, by omega⟩
        simp only [loop2, hrv, hsv]
      | some sb =>
        have hrj : rj < er.2.length :=
          get?_some_lt er.2 rj rb (value_lower_some dr ri rj rb er her hrv)
        have hsv2 : (ds.get? sk).map Prod.fst = some sb := hsv
        rcases Option.map_eq_some'.mp hsv2 with ⟨esk, hesk, hkey⟩
        have hsk : sk < ds.length := get?_some_lt ds sk esk hesk
        rcases lt_trichotomy rb sb with h | h | h
        · have hc : compare rb sb = Ordering.lt := Nat.compare_eq_lt.mpr h
          have hprog := seek_lower_progress dr ri rj sb rb er her hrs hrv h
          have hseek := seek_lower_eq dr ri rj sb er her
          obtain ⟨N, rj2, sk2, tj2, c2, hN⟩ :=
            ih (binarySearch er.2 sb) sk tj count (by omega)
          refine ⟨N + 1, rj2, sk2, tj2, c2, ?_⟩
          intro fuel hf
          obtain ⟨f, rfl⟩ : ∃ f, fuel = f + 1 := ⟨fuel - 1, by omega⟩
          simp only [loop2, hrv, hsv, hc, hseek, Option.some_bind]
          exact hN f (by omega)
        · have hc : compare rb sb = Ordering.eq := Nat.compare_eq_eq.mpr h
          have hsorted : esk.2.Pairwise (· < ·) := hds.2 esk (List.get?_mem hesk)
          obtain ⟨N3, sj2, tj2, c3, hN3⟩ :=
            loop3_term ds dt sk ti esk et hesk het hsorted hts
              (esk.2.length + et.2.length) 0 0 count (by omega)
          obtain ⟨N2, rj2, sk2, tj3, c2, hN2⟩ := ih rj (sk + 1) tj2 c3 (by omega)
          refine ⟨max N3 N2 + 1, rj2, sk2, tj3, c2, ?_⟩
          intro fuel hf
          obtain ⟨f, rfl⟩ : ∃ f, fuel = f + 1 := ⟨fuel - 1, by omega⟩
          simp only [loop2, hrv, hsv, hc, down_upper_eq, reset_lower_eq,
            Option.some_bind, hN3 f (by omega), up_lower_eq, next_upper_eq]
          exact hN2 f (by omega)
        · have hc : compare rb sb = Ordering.gt := Nat.compare_eq_gt.mpr h
          have hprog := seek_upper_progress ds sk rb sb hds.1 hsv h
          have hseek := seek_upper_eq ds sk rb
          obtain ⟨N, rj2, sk2, tj2, c2, hN⟩ :=
            ih rj (binarySearchByKey ds rb) tj count (by omega)
          refine ⟨N + 1, rj2, sk2, tj2, c2, ?_⟩
          intro fuel hf
          obtain ⟨f, rfl⟩ : ∃ f, fuel = f + 1 := ⟨fuel - 1, by omega⟩
          simp only [loop2, hrv, hsv, hc, hseek, Option.some_bind]
          exact hN f (by omega)

/-- Termination and framing of the outer loop: started with all three
cursors at `Upper` over relations satisfying the §3 invariants, `loop1`
returns with enough fuel, leaving all three cursors at `Upper`. -/
theorem loop1_term (dr ds dt : List (Nat × List Nat)) (hdr : RelSorted dr)
    (hds : RelSorted ds) (hdt : RelSorted dt) :
    ∀ (m ri sk ti count : Nat),
      dr.length - ri + (dt.length - ti) ≤ m →
      ∃ N ri2 sk2 ti2 c2, ∀ fuel, N ≤ fuel →
        loop1 fuel (mkIdx (Position.Upper ri) dr) (mkIdx (Position.Upper sk) ds)
            (mkIdx (Position.Upper ti) dt) count =
          some (mkIdx (Position.Upper ri2) dr, mkIdx (Position.Upper sk2) ds,
                mkIdx (Position.Upper ti2) dt, c2) := by
  intro m
  induction m with
  | zero =>
    intro ri sk ti count hm
    refine ⟨1, ri, sk, ti, count, ?_⟩
    intro fuel hf
    obtain ⟨f, rfl⟩ : ∃ f, fuel = f + 1 := ⟨fuel - 1, by omega⟩
    have hr : (mkIdx (Position.Upper ri) dr).value = none := by
      rw [value_upper_eq, List.get?_eq_none.mpr (by omega)]
      rfl
    simp only [loop1, hr]
  | succ n ih =>
    intro ri sk ti count hm
    cases hrv : (mkIdx (Position.Upper ri) dr).value with
    | none =>
      refine ⟨1, ri, sk, ti, count, ?_⟩
      intro fuel hf
      obtain ⟨f, rfl⟩ : ∃ f, fuel = f + 1 := ⟨fuel - 1, by omega⟩
      simp only [loop1, hrv]
    | some ra =>
      cases htv : (mkIdx (Position.Upper ti) dt).value with
      | none =>
        refine ⟨1, ri, sk, ti, count, ?_⟩
        intro fuel hf
        obtain ⟨f, rfl⟩ : ∃ f, fuel = f + 1 := ⟨fuel - 1, by omega⟩
        simp only [loop1, hrv, htv]
      | some ta =>
        have hrv2 : (dr.get? ri).map Prod.fst = some ra := hrv
        rcases Option.map_eq_some'.mp hrv2 with ⟨era, hera, hkeyr⟩
        have hri : ri < dr.length := get?_some_lt dr ri era hera
        have htv2 : (dt.get? ti).map Prod.fst = some ta := htv
        rcases Option.map_eq_some'.mp htv2 with ⟨eta, heta, hkeyt⟩
        have hti : ti < dt.length := get?_some_lt dt ti eta heta
        rcases lt_trichotomy ra ta with h | h | h
        · have hc : compare ra ta = Ordering.lt := Nat.compare_eq_lt.mpr h
          have hprog := seek_upper_progress dr ri ta ra hdr.1 hrv h
          have hseek := seek_upper_eq dr ri ta
          obtain ⟨N, ri2, sk2, ti2, c2, hN⟩ :=
            ih (binarySearchByKey dr ta) sk ti count (by omega)
          refine ⟨N + 1, ri2, sk2, ti2, c2, ?_⟩
          intro fuel hf
          obtain ⟨f, rfl⟩ : ∃ f, fuel = f + 1 := ⟨fuel - 1, by omega⟩
          simp only [loop1, hrv, htv, hc, hseek, Option.some_bind]
          exact hN f (by omega)
        · have hc : compare ra ta = Ordering.eq := Nat.compare_eq_eq.mpr h
          have hrsorted : era.2.Pairwise (· < ·) := hdr.2 era (List.get?_mem hera)
          have htsorted : eta.2.Pairwise (· < ·) := hdt.2 eta (List.get?_mem heta)
          obtain ⟨N2, rj2, sk2, tj2, c2, hN2⟩ :=
            loop2_term dr ds dt ri ti era eta hera heta hrsorted htsorted hds
              (era.2.length + ds.length) 0 sk 0 count (by omega)
          obtain ⟨N1, ri2, sk3, ti2, c3, hN1⟩ := ih (ri + 1) 0 (ti + 1) c2 (by omega)
          refine ⟨max N2 N1 + 1, ri2, sk3, ti2, c3, ?_⟩
          intro fuel hf
          obtain ⟨f, rfl⟩ : ∃ f, fuel = f + 1 := ⟨fuel - 1, by omega⟩
          simp only [loop1, hrv, htv, hc, down_upper_eq, Option.some_bind,
            hN2 f (by omega), up_lower_eq, next_upper_eq, reset_upper_eq]
          exact hN1 f (by omega)
        · have hc : compare ra ta = Ordering.gt := Nat.compare_eq_gt.mpr h
          have hprog := seek_upper_progress dt ti ra ta hdt.1 htv h
          have hseek := seek_upper_eq dt ti ra
          obtain ⟨N, ri2, sk2, ti2, c2, hN⟩ :=
            ih ri sk (binarySearchByKey dt ra) count (by omega)
          refine ⟨N + 1, ri2, sk2, ti2, c2, ?_⟩
          intro fuel hf
          obtain ⟨f, rfl⟩ : ∃ f, fuel = f + 1 := ⟨fuel - 1, by omega⟩
          simp only [loop1, hrv, htv, hc, hseek, Option.some_bind]
          exact hN f (by omega)

/-- C3: over any relation satisfying the §3 invariants (strictly
increasing keys, strictly increasing value lists, hence no duplicates),
the join driver's three-level nested leapfrog loop terminates: started
from three fresh cursors, the loops run to completion — some finite fuel
makes the fuel-indexed embedding return a count (in particular no panic
occurs along the run). -/
theorem runJoin_terminates (d : List (Nat × List Nat)) (h : RelSorted d) :
    ∃ fuel n, runJoin fuel d = some n := by
  obtain ⟨N, ri2, sk2, ti2, c2, hN⟩ :=
    loop1_term d d d h h h (d.length + d.length) 0 0 0 0 (by omega)
  refine ⟨N, c2, ?_⟩
  show (loop1 N (mkIdx (Position.Upper 0) d) (mkIdx (Position.Upper 0) d)
    (mkIdx (Position.Upper 0) d) 0).map (fun z => z.2.2.2) = some c2
  rw [hN N (le_refl N)]
  rfl

/-- C3 witness: the example relation satisfies the invariants, and the
driver run on it terminates. -/
theorem runJoin_terminates_witness :
    RelSorted exampleRel ∧ ∃ fuel n, runJoin fuel exampleRel = some n :=
  ⟨by unfold RelSorted; decide,
   runJoin_terminates exampleRel (by unfold RelSorted; decide)⟩

/-- C9: the join driver yields count 0 (with no panic) on the empty
relation, and on any relation holding a single key with an empty value
list (for any fuel ≥ 2, enough for the loops to reach their exit
conditions). -/
theorem runJoin_degenerate :
    runJoin 10 ([] : List (Nat × List Nat)) = some 0 ∧
    ∀ k fuel, 2 ≤ fuel → runJoin fuel [(k, [])] = some 0 := by
  constructor
  · decide
  · intro k fuel hf
    obtain ⟨f, rfl⟩ : ∃ f, fuel = f + 1 := ⟨fuel - 1, by omega⟩
    obtain ⟨g, rfl⟩ : ∃ g, f = g + 1 := ⟨f - 1, by omega⟩
    have hc : compare k k = Ordering.eq := Nat.compare_eq_eq.mpr rfl
    have hrv : (mkIdx (Position.Upper 0) [(k, [])]).value = some k := rfl
    have hrl : (mkIdx (Position.Lower 0 0) [(k, [])]).value = none := rfl
    have hrv1 : (mkIdx (Position.Upper 1) [(k, [])]).value = none := rfl
    show (loop1 (g + 1 + 1) (mkIdx (Position.Upper 0) [(k, [])])
        (mkIdx (Position.Upper 0) [(k, [])])
        (mkIdx (Position.Upper 0) [(k, [])]) 0).map (fun z => z.2.2.2) = some 0
    simp only [loop1, loop2, hrv, hrl, hrv1, hc, down_upper_eq, up_lower_eq,
      next_upper_eq, reset_upper_eq, Option.some_bind, Option.map_some']

/-- C9 witness: concrete instance with key `5` and fuel `10`. -/
theorem runJoin_degenerate_witness :
    2 ≤ 10 ∧ runJoin 10 [(5, [])] = some 0 :=
  ⟨by decide, runJoin_degenerate.2 5 10 (by decide)⟩
